import Mathlib

/-!
Shallow embedding of the core of the `read_until` client
(`read_until/read_until.py`): the bounded channel-keyed `ReadCache`
and the pure decision logic of the stream coordinator (`ReadUntil`).

The Python `OrderedDict` backing the cache is modelled as a list of
`(channel, chunk)` pairs in insertion order: the head is the oldest
entry, the last element the newest.
-/

set_option autoImplicit false

namespace ReadUntilSpec

/-- A read chunk as far as the cache logic observes it: only the read
number (`read.number` in the Python source) is inspected by
`ReadCache.__setitem__`. -/
structure Chunk where
  number : Int
  deriving Repr, DecidableEq

/-- State of `ReadCache`: maximum size, the ordered dictionary
(head = oldest entry), and the two counters. -/
structure ReadCache where
  size : Nat
  dict : List (Nat × Chunk)
  missed : Nat
  replaced : Nat
  deriving Repr, DecidableEq

/-- `ReadCache.__init__`: raises (`none`) when `size < 1`, otherwise an
empty cache with zeroed counters. -/
def ReadCache.init (size : Nat) : Option ReadCache :=
  if size < 1 then none else some ⟨size, [], 0, 0⟩

/-- The `while len(self.dict) >= self.size` loop of
`ReadCache.__setitem__`: pop the oldest entry `(k, v)`, increment
`replaced` when `k == key and v.number == value.number`, else `missed`,
and record in the `counted` flag that the loop body ran.  (For
`size = 0` on an empty dict Python would raise `KeyError`; the
constructor guarantees `size ≥ 1`, and there we return the state
unchanged as the loop guard can no longer pop anything.) -/
def evictLoop (size key : Nat) (number : Int) :
    List (Nat × Chunk) → Nat → Nat → Bool →
    List (Nat × Chunk) × Nat × Nat × Bool
  | [], missed, replaced, counted => ([], missed, replaced, counted)
  | (k, v) :: rest, missed, replaced, counted =>
    if size ≤ ((k, v) :: rest).length then
      if k = key ∧ v.number = number then
        evictLoop size key number rest missed (replaced + 1) true
      else
        evictLoop size key number rest (missed + 1) replaced true
    else ((k, v) :: rest, missed, replaced, counted)

/-- `ReadCache.__setitem__`: run the eviction loop; then, if `key` is
still present, count the overwrite (only when the loop did not run),
delete the resident entry and append `(key, value)` as newest. -/
def ReadCache.setItem (s : ReadCache) (key : Nat) (value : Chunk) : ReadCache :=
  let res := evictLoop s.size key value.number s.dict s.missed s.replaced false
  let d := res.1
  let m := res.2.1
  let r := res.2.2.1
  let counted := res.2.2.2
  match d.find? (fun p => p.1 == key) with
  | some p =>
    let mr : Nat × Nat :=
      if counted then (m, r)
      else if p.2.number = value.number then (m, r + 1) else (m + 1, r)
    ⟨s.size, d.filter (fun q => !(q.1 == key)) ++ [(key, value)], mr.1, mr.2⟩
  | none => ⟨s.size, d ++ [(key, value)], m, r⟩

/-- `ReadCache.popitem(last)`: remove and return the newest
(`last = true`) or oldest (`last = false`) entry; `none` models the
`KeyError` Python raises on an empty dict. -/
def ReadCache.popItem (s : ReadCache) (last : Bool) :
    Option ((Nat × Chunk) × ReadCache) :=
  if last then
    match s.dict.getLast? with
    | none => none
    | some p => some (p, ⟨s.size, s.dict.dropLast, s.missed, s.replaced⟩)
  else
    match s.dict with
    | [] => none
    | p :: rest => some (p, ⟨s.size, rest, s.missed, s.replaced⟩)

/-- `ReadCache.popitems(items, last)`: pop up to `items` entries,
swallowing the `KeyError` on an empty dict (`except KeyError: pass`);
returns the collected entries and the resulting cache. -/
def ReadCache.popItems (s : ReadCache) (items : Nat) (last : Bool) :
    List (Nat × Chunk) × ReadCache :=
  match items with
  | 0 => ([], s)
  | n + 1 =>
    match s.popItem last with
    | none => ([], s)
    | some (p, s1) =>
      let rest := s1.popItems n last
      (p :: rest.1, rest.2)

set_option linter.unusedVariables false in
/-- `ReadUntil.get_read_chunks(batch_size, last)`: the source calls
`self.data_queue.popitems(items=batch_size, last=True)`, passing the
literal `True` rather than the `last` argument. -/
def getReadChunks (s : ReadCache) (batch_size : Nat) (last : Bool) :
    List (Nat × Chunk) × ReadCache :=
  s.popItems batch_size true

/-- An observable operation on the shared `ReadCache`: a producer put
(`__setitem__` via `_process_reads`), a single pop (`popitem`) or a
batch pop (`popitems` via `get_read_chunks`). -/
inductive Op where
  | put (channel : Nat) (chunk : Chunk)
  | popOne (last : Bool)
  | popBatch (items : Nat) (last : Bool)
  deriving Repr, DecidableEq

/-- A cache together with the bookkeeping needed to audit it from the
outside: how many puts have been issued and how many entries pops have
returned so far. -/
structure Tally where
  cache : ReadCache
  puts : Nat
  delivered : Nat
  deriving Repr, DecidableEq

/-- Apply one operation to a tallied cache.  A failed single pop
(empty cache) delivers nothing and leaves the cache unchanged. -/
def applyOp (t : Tally) : Op → Tally
  | Op.put c v => ⟨t.cache.setItem c v, t.puts + 1, t.delivered⟩
  | Op.popOne last =>
    match t.cache.popItem last with
    | none => t
    | some (_, s1) => ⟨s1, t.puts, t.delivered + 1⟩
  | Op.popBatch n last =>
    let res := t.cache.popItems n last
    ⟨res.2, t.puts, t.delivered + res.1.length⟩

/-- Run a sequence of operations against a fresh `ReadCache(size)`. -/
def runOps (size : Nat) (ops : List Op) : Tally :=
  ops.foldl applyOp ⟨⟨size, [], 0, 0⟩, 0, 0⟩

/-- The class names `ReadUntil.__init__` treats as strand-like. -/
def allowedClasses : List String := ["strand", "strand1", "adapter", "unavailable"]

/-- `ReadUntil.__init__`: `strand_classes` is the set of codes of the
session classification map whose name is in `allowed_classes`. -/
def strandClasses (read_classes : List (Nat × String)) : List Nat :=
  (read_classes.filter (fun p => allowedClasses.contains p.2)).map Prod.fst

/-- `_process_reads`: `any([x in self.strand_classes for x in
read.chunk_classifications])`. -/
def strandLike (strand_classes classifications : List Nat) : Bool :=
  classifications.any (fun x => strand_classes.contains x)

/-- `_process_reads`: the guard `not self.filter_strands or strand_like`
deciding whether the chunk is written into the cache. -/
def shouldCache (filter_strands : Bool) (strand_classes classifications : List Nat) : Bool :=
  !filter_strands || strandLike strand_classes classifications

/-- `ReadUntil.ALLOWED_MIN_CHUNK_SIZE`. -/
def ALLOWED_MIN_CHUNK_SIZE : Int := 4000

/-- The clamp at the top of `ReadUntil._runner`: requests above
`ALLOWED_MIN_CHUNK_SIZE` are reduced to it. -/
def clampMinChunkSize (min_chunk_size : Int) : Int :=
  if min_chunk_size > ALLOWED_MIN_CHUNK_SIZE then ALLOWED_MIN_CHUNK_SIZE else min_chunk_size

/-- An outbound message yielded by `ReadUntil._runner`: either the
stream setup or a batched actions message (actions abstracted to
opaque identifiers). -/
inductive RunnerMsg where
  | setup (first_channel last_channel : Nat) (sample_minimum_chunk_size : Int)
  | actions (acts : List Nat)
  deriving Repr, DecidableEq

/-- Whether a runner message is an actions message. -/
def RunnerMsg.isActions : RunnerMsg → Bool
  | RunnerMsg.actions _ => true
  | RunnerMsg.setup _ _ _ => false

/-- The `while t0 < timeout_pt` loop of `ReadUntil._runner`, driven by
a schedule abstracting the environment: each element gives the wall
clock read at the top of one loop body together with the actions the
non-blocking drain of `action_queue` returned there.  The loop guard
tests the time read by the previous iteration (the initial reading for
the first test); a non-empty drain yields one `actions` message. -/
def runnerLoop (timeout : Nat) : Nat → List (Nat × List Nat) → List RunnerMsg
  | _, [] => []
  | t0, (t, acts) :: rest =>
    if t0 < timeout then
      (if acts.isEmpty then [] else [RunnerMsg.actions acts]) ++ runnerLoop timeout t rest
    else []

/-- `ReadUntil._runner`: `timeout_pt = time.time() + run_time` is fixed
at entry (`startT` is that initial clock reading), one setup message
carrying the clamped `min_chunk_size` is yielded first, then the
action-draining loop runs. -/
def runner (run_time startT first_channel last_channel : Nat) (min_chunk_size : Int)
    (sched : List (Nat × List Nat)) : List RunnerMsg :=
  RunnerMsg.setup first_channel last_channel (clampMinChunkSize min_chunk_size) ::
    runnerLoop (startT + run_time) startT sched

/-! Lemmas about the eviction loop. -/

/-- When the dict is below capacity the eviction loop does nothing. -/
theorem evictLoop_below {size key : Nat} {number : Int} {d : List (Nat × Chunk)}
    {m r : Nat} {c : Bool} (h : d.length < size) :
    evictLoop size key number d m r c = (d, m, r, c) := by
  cases d with
  | nil => rfl
  | cons p rest =>
    obtain ⟨k, v⟩ := p
    simp only [evictLoop]
    rw [if_neg (by simp only [List.length_cons]; simp only [List.length_cons] at h; omega)]

/-- Each iteration of the eviction loop trades one resident entry for
one counter increment: the sum `missed + replaced + |dict|` is
preserved. -/
theorem evictLoop_sum (size key : Nat) (number : Int) (d : List (Nat × Chunk))
    (m r : Nat) (c : Bool) :
    (evictLoop size key number d m r c).2.1 + (evictLoop size key number d m r c).2.2.1 +
      (evictLoop size key number d m r c).1.length = m + r + d.length := by
  induction d generalizing m r c with
  | nil => simp [evictLoop]
  | cons p rest ih =>
    obtain ⟨k, v⟩ := p
    simp only [evictLoop, List.length_cons]
    split
    · split
      · have h := ih m (r + 1) true
        omega
      · have h := ih (m + 1) r true
        omega
    · simp [List.length_cons]

/-- The eviction loop only removes entries from the front: its
resulting dict is a suffix of the input dict. -/
theorem evictLoop_suffix (size key : Nat) (number : Int) (d : List (Nat × Chunk))
    (m r : Nat) (c : Bool) :
    (evictLoop size key number d m r c).1 <:+ d := by
  induction d generalizing m r c with
  | nil => exact List.suffix_refl []
  | cons p rest ih =>
    obtain ⟨k, v⟩ := p
    simp only [evictLoop]
    split
    · split
      · exact (ih m (r + 1) true).trans (List.suffix_cons (k, v) rest)
      · exact (ih (m + 1) r true).trans (List.suffix_cons (k, v) rest)
    · exact List.suffix_refl _

/-- For a positive capacity the eviction loop leaves strictly fewer
than `size` entries. -/
theorem evictLoop_length_lt (size key : Nat) (number : Int) (d : List (Nat × Chunk))
    (m r : Nat) (c : Bool) (h : 1 ≤ size) :
    (evictLoop size key number d m r c).1.length < size := by
  induction d generalizing m r c with
  | nil => simpa [evictLoop] using h
  | cons p rest ih =>
    obtain ⟨k, v⟩ := p
    simp only [evictLoop]
    split
    · split
      · exact ih m (r + 1) true
      · exact ih (m + 1) r true
    · rename_i h2
      simp only [List.length_cons] at h2 ⊢
      omega

/-- At exactly full capacity the eviction loop runs exactly once: it
pops the oldest entry, applies the eviction accounting to it, and
reports `counted = true`. -/
theorem evictLoop_at_capacity {size key : Nat} {number : Int} {k : Nat} {v : Chunk}
    {tl : List (Nat × Chunk)} {m r : Nat} {c : Bool}
    (hfull : ((k, v) :: tl).length = size) :
    evictLoop size key number ((k, v) :: tl) m r c =
      (tl, (if k = key ∧ v.number = number then m else m + 1),
        (if k = key ∧ v.number = number then r + 1 else r), true) := by
  have htl : tl.length < size := by
    simp only [List.length_cons] at hfull
    omega
  have hle : size ≤ ((k, v) :: tl).length := le_of_eq hfull.symm
  by_cases hc : k = key ∧ v.number = number
  · simp only [evictLoop, if_pos hle, if_pos hc, evictLoop_below htl]
  · simp only [evictLoop, if_pos hle, if_neg hc, evictLoop_below htl]

/-! Lemmas about `setItem`. -/

/-- `setItem` never changes the capacity. -/
theorem setItem_size (s : ReadCache) (key : Nat) (v : Chunk) :
    (s.setItem key v).size = s.size := by
  unfold ReadCache.setItem
  rcases hres : evictLoop s.size key v.number s.dict s.missed s.replaced false
    with ⟨d, m, r, cnt⟩
  rcases hf : d.find? (fun p => p.1 == key) with _ | p <;> simp [hf]

/-- One `setItem` increases `missed + replaced + |dict|` by at most
one: the slack is the silently dropped resident entry of a
full-capacity overwrite. -/
theorem setItem_measure (s : ReadCache) (key : Nat) (v : Chunk) :
    (s.setItem key v).missed + (s.setItem key v).replaced + (s.setItem key v).dict.length ≤
      s.missed + s.replaced + s.dict.length + 1 := by
  have hsum := evictLoop_sum s.size key v.number s.dict s.missed s.replaced false
  unfold ReadCache.setItem
  rcases hres : evictLoop s.size key v.number s.dict s.missed s.replaced false
    with ⟨d, m, r, cnt⟩
  rw [hres] at hsum
  simp only at hsum
  rcases hf : d.find? (fun p => p.1 == key) with _ | p
  · simp only [hf, List.length_append, List.length_cons, List.length_nil]
    omega
  · have hmem : p ∈ d := List.mem_of_find?_eq_some hf
    have hpk := List.find?_some hf
    have hflt : (d.filter (fun q => !(q.1 == key))).length < d.length :=
      List.length_filter_lt_length_iff_exists.mpr ⟨p, hmem, by simp [hpk]⟩
    cases cnt with
    | true =>
      simp only [hf, if_pos, List.length_append, List.length_cons, List.length_nil]
      omega
    | false =>
      by_cases hn : p.2.number = v.number
      · simp only [hf, Bool.false_eq_true, if_false, if_pos hn,
          List.length_append, List.length_cons, List.length_nil]
        omega
      · simp only [hf, Bool.false_eq_true, if_false, if_neg hn,
          List.length_append, List.length_cons, List.length_nil]
        omega

/-- With a positive capacity, `setItem` keeps the dict within
capacity. -/
theorem setItem_length (s : ReadCache) (key : Nat) (v : Chunk) (hsz : 1 ≤ s.size) :
    (s.setItem key v).dict.length ≤ s.size := by
  have hlt := evictLoop_length_lt s.size key v.number s.dict s.missed s.replaced false hsz
  unfold ReadCache.setItem
  rcases hres : evictLoop s.size key v.number s.dict s.missed s.replaced false
    with ⟨d, m, r, cnt⟩
  rw [hres] at hlt
  simp only at hlt
  rcases hf : d.find? (fun p => p.1 == key) with _ | p
  · simp only [hf, List.length_append, List.length_cons, List.length_nil]
    omega
  · have hflt := List.length_filter_le (fun q : Nat × Chunk => !(q.1 == key)) d
    simp only [hf, List.length_append, List.length_cons, List.length_nil]
    omega

/-- `setItem` preserves distinctness of the channel keys. -/
theorem setItem_nodup (s : ReadCache) (key : Nat) (v : Chunk)
    (h : (s.dict.map Prod.fst).Nodup) :
    ((s.setItem key v).dict.map Prod.fst).Nodup := by
  have hsuf := evictLoop_suffix s.size key v.number s.dict s.missed s.replaced false
  unfold ReadCache.setItem
  rcases hres : evictLoop s.size key v.number s.dict s.missed s.replaced false
    with ⟨d, m, r, cnt⟩
  rw [hres] at hsuf
  simp only at hsuf
  have hd : (d.map Prod.fst).Nodup :=
    List.Nodup.sublist (List.Sublist.map Prod.fst hsuf.sublist) h
  rcases hf : d.find? (fun p => p.1 == key) with _ | p
  · have hkey : key ∉ d.map Prod.fst := by
      intro hk
      rcases List.mem_map.mp hk with ⟨q, hq, hq1⟩
      have := List.find?_eq_none.mp hf q hq
      simp [hq1] at this
    simp only [hf, List.map_append, List.map_cons, List.map_nil]
    rw [List.nodup_append]
    refine ⟨hd, List.nodup_singleton key, ?_⟩
    intro a ha hb
    simp only [List.mem_singleton] at hb
    exact hkey (hb ▸ ha)
  · have hsub : (d.filter (fun q => !(q.1 == key))).Sublist d := List.filter_sublist d
    have hdflt : ((d.filter (fun q => !(q.1 == key))).map Prod.fst).Nodup :=
      List.Nodup.sublist (List.Sublist.map Prod.fst hsub) hd
    have hkey : key ∉ (d.filter (fun q => !(q.1 == key))).map Prod.fst := by
      intro hk
      rcases List.mem_map.mp hk with ⟨q, hq, hq1⟩
      have := (List.mem_filter.mp hq).2
      simp [hq1] at this
    simp only [hf, List.map_append, List.map_cons, List.map_nil]
    rw [List.nodup_append]
    refine ⟨hdflt, List.nodup_singleton key, ?_⟩
    intro a ha hb
    simp only [List.mem_singleton] at hb
    exact hkey (hb ▸ ha)

/-! Lemmas about `popItem` and `popItems`. -/

/-- A successful single pop removes exactly one entry and touches
neither counters nor capacity. -/
theorem popItem_some (s : ReadCache) (last : Bool) (p : Nat × Chunk) (s1 : ReadCache)
    (h : s.popItem last = some (p, s1)) :
    s1.size = s.size ∧ s1.missed = s.missed ∧ s1.replaced = s.replaced ∧
      s1.dict.length + 1 = s.dict.length ∧ s1.dict.Sublist s.dict := by
  cases last with
  | true =>
    rcases hg : s.dict.getLast? with _ | q
    · simp [ReadCache.popItem, hg] at h
    · have hne : s.dict ≠ [] := by
        intro he
        rw [he] at hg
        simp at hg
      have hlen : 1 ≤ s.dict.length := by
        cases hd : s.dict with
        | nil => exact absurd hd hne
        | cons a l => simp [hd]
      simp only [ReadCache.popItem, hg, if_pos, Option.some.injEq, Prod.mk.injEq] at h
      rcases h with ⟨_, h2⟩
      rw [← h2]
      refine ⟨rfl, rfl, rfl, ?_, List.dropLast_sublist s.dict⟩
      simp only [List.length_dropLast]
      omega
  | false =>
    cases hd : s.dict with
    | nil => simp [ReadCache.popItem, hd] at h
    | cons a l =>
      simp only [ReadCache.popItem, hd, Bool.false_eq_true, if_false,
        Option.some.injEq, Prod.mk.injEq] at h
      rcases h with ⟨_, h2⟩
      rw [← h2]
      exact ⟨rfl, rfl, rfl, by simp [hd], by simp only [hd]; exact List.sublist_cons_self a l⟩

/-- A batch pop removes exactly the entries it returns and touches
neither counters nor capacity. -/
theorem popItems_spec (items : Nat) (last : Bool) (s : ReadCache) :
    (s.popItems items last).2.size = s.size ∧
      (s.popItems items last).2.missed = s.missed ∧
      (s.popItems items last).2.replaced = s.replaced ∧
      (s.popItems items last).2.dict.length + (s.popItems items last).1.length =
        s.dict.length ∧
      (s.popItems items last).2.dict.Sublist s.dict := by
  induction items generalizing s with
  | zero => simp [ReadCache.popItems]
  | succ n ih =>
    unfold ReadCache.popItems
    rcases hp : s.popItem last with _ | ⟨p, s1⟩
    · simp
    · have hs := popItem_some s last p s1 hp
      have hrec := ih s1
      simp only [List.length_cons]
      refine ⟨hrec.1.trans hs.1, hrec.2.1.trans hs.2.1, hrec.2.2.1.trans hs.2.2.1, ?_, ?_⟩
      · have h1 := hrec.2.2.2.1
        have h2 := hs.2.2.2.1
        omega
      · exact hrec.2.2.2.2.trans hs.2.2.2.2

/-! Trace-level invariants. -/

/-- One operation preserves capacity, boundedness and key
distinctness of the tallied cache. -/
theorem applyOp_wf (size : Nat) (hsz : 1 ≤ size) (t : Tally) (op : Op)
    (h : t.cache.size = size ∧ t.cache.dict.length ≤ size ∧
      (t.cache.dict.map Prod.fst).Nodup) :
    (applyOp t op).cache.size = size ∧ (applyOp t op).cache.dict.length ≤ size ∧
      ((applyOp t op).cache.dict.map Prod.fst).Nodup := by
  obtain ⟨h1, h2, h3⟩ := h
  cases op with
  | put c v =>
    refine ⟨(setItem_size t.cache c v).trans h1, ?_, setItem_nodup t.cache c v h3⟩
    show (t.cache.setItem c v).dict.length ≤ size
    have := setItem_length t.cache c v (h1 ▸ hsz)
    omega
  | popOne last =>
    simp only [applyOp]
    rcases hp : t.cache.popItem last with _ | ⟨p, s1⟩
    · exact ⟨h1, h2, h3⟩
    · have hs := popItem_some t.cache last p s1 hp
      refine ⟨hs.1.trans h1, ?_, ?_⟩
      · show s1.dict.length ≤ size
        have := hs.2.2.2.1
        omega
      · exact List.Nodup.sublist (List.Sublist.map Prod.fst hs.2.2.2.2) h3
  | popBatch n last =>
    have hs := popItems_spec n last t.cache
    refine ⟨hs.1.trans h1, ?_, ?_⟩
    · show (t.cache.popItems n last).2.dict.length ≤ size
      have := hs.2.2.2.1
      omega
    · exact List.Nodup.sublist (List.Sublist.map Prod.fst hs.2.2.2.2) h3

/-- Folding operations preserves the well-formedness invariant. -/
theorem foldl_wf (size : Nat) (hsz : 1 ≤ size) (ops : List Op) (t : Tally)
    (h : t.cache.size = size ∧ t.cache.dict.length ≤ size ∧
      (t.cache.dict.map Prod.fst).Nodup) :
    (ops.foldl applyOp t).cache.size = size ∧
      (ops.foldl applyOp t).cache.dict.length ≤ size ∧
      ((ops.foldl applyOp t).cache.dict.map Prod.fst).Nodup := by
  induction ops generalizing t with
  | nil => exact h
  | cons op rest ih => exact ih (applyOp t op) (applyOp_wf size hsz t op h)

/-- One operation preserves the accounting bound
`missed + replaced + delivered + |dict| ≤ puts`. -/
theorem applyOp_measure (t : Tally) (op : Op)
    (h : t.cache.missed + t.cache.replaced + t.delivered + t.cache.dict.length ≤ t.puts) :
    (applyOp t op).cache.missed + (applyOp t op).cache.replaced +
      (applyOp t op).delivered + (applyOp t op).cache.dict.length ≤ (applyOp t op).puts := by
  cases op with
  | put c v =>
    have := setItem_measure t.cache c v
    show (t.cache.setItem c v).missed + (t.cache.setItem c v).replaced +
      t.delivered + (t.cache.setItem c v).dict.length ≤ t.puts + 1
    omega
  | popOne last =>
    simp only [applyOp]
    rcases hp : t.cache.popItem last with _ | ⟨p, s1⟩
    · exact h
    · have hs := popItem_some t.cache last p s1 hp
      have h1 := hs.2.1
      have h2 := hs.2.2.1
      have h3 := hs.2.2.2.1
      show s1.missed + s1.replaced + (t.delivered + 1) + s1.dict.length ≤ t.puts
      omega
  | popBatch n last =>
    have hs := popItems_spec n last t.cache
    have h1 := hs.2.1
    have h2 := hs.2.2.1
    have h3 := hs.2.2.2.1
    show (t.cache.popItems n last).2.missed + (t.cache.popItems n last).2.replaced +
      (t.delivered + (t.cache.popItems n last).1.length) +
      (t.cache.popItems n last).2.dict.length ≤ t.puts
    omega

/-- Folding operations preserves the accounting bound. -/
theorem foldl_measure (ops : List Op) (t : Tally)
    (h : t.cache.missed + t.cache.replaced + t.delivered + t.cache.dict.length ≤ t.puts) :
    (ops.foldl applyOp t).cache.missed + (ops.foldl applyOp t).cache.replaced +
      (ops.foldl applyOp t).delivered + (ops.foldl applyOp t).cache.dict.length ≤
      (ops.foldl applyOp t).puts := by
  induction ops generalizing t with
  | nil => exact h
  | cons op rest ih => exact ih (applyOp t op) (applyOp_measure t op h)

/-! Claims. -/

/-- C1 (counterexample): at full capacity with channel 2 resident
(read number 7), `put(2, chunk(read 7))` does **not** follow the
claimed overwrite accounting.  The claim predicts `replaced = 1`,
`missed = 0` and channel 1 still resident; the code first runs the
capacity eviction loop (evicting channel 1 and incrementing `missed`)
and then drops the resident entry without any overwrite accounting. -/
theorem c1_counterexample :
    ReadCache.setItem ⟨2, [(1, ⟨5⟩), (2, ⟨7⟩)], 0, 0⟩ 2 ⟨7⟩ = ⟨2, [(2, ⟨7⟩)], 1, 0⟩ ∧
      ReadCache.setItem ⟨2, [(1, ⟨5⟩), (2, ⟨7⟩)], 0, 0⟩ 2 ⟨7⟩ ≠
        ⟨2, [(1, ⟨5⟩), (2, ⟨7⟩)], 0, 1⟩ := by
  decide

/-- C1 (amended): when the cache is strictly below capacity and
channel `key` is already resident with chunk `v0`, `put(key, v)`
compares the resident read number with the incoming one, increments
`replaced` on equality and `missed` otherwise, removes the resident
entry and appends `(key, v)` as the newest entry; the capacity
eviction accounting is not applied.  (At full capacity the eviction
loop runs first instead and the overwrite itself is left uncounted.) -/
theorem c1_overwrite_below_capacity (s : ReadCache) (key : Nat) (v v0 : Chunk)
    (hlt : s.dict.length < s.size)
    (hfind : s.dict.find? (fun p => p.1 == key) = some (key, v0)) :
    s.setItem key v =
      ⟨s.size, s.dict.filter (fun q => !(q.1 == key)) ++ [(key, v)],
        (if v0.number = v.number then s.missed else s.missed + 1),
        (if v0.number = v.number then s.replaced + 1 else s.replaced)⟩ := by
  unfold ReadCache.setItem
  rw [evictLoop_below hlt]
  by_cases hn : v0.number = v.number <;> simp [hfind, hn]

/-- C1 (witness): the spec's replacement-accounting scenario,
`cache_size = 2`, `put(ch 1, read 5)` then `put(ch 1, read 5)`:
`replaced = 1`, `missed = 0`, one resident entry. -/
theorem c1_witness :
    ReadCache.setItem ⟨2, [(1, ⟨5⟩)], 0, 0⟩ 1 ⟨5⟩ = ⟨2, [(1, ⟨5⟩)], 0, 1⟩ := by
  have h := c1_overwrite_below_capacity ⟨2, [(1, ⟨5⟩)], 0, 0⟩ 1 ⟨5⟩ ⟨5⟩
    (by decide) (by decide)
  rw [h]
  decide

/-- C2 (counterexample): with `cache_size = 2` the put sequence
`(ch 1, read 5)`, `(ch 2, read 7)`, `(ch 2, read 8)` issues 3 puts but
`missed + replaced + delivered + |cache| = 1 + 0 + 0 + 1 = 2`: the
resident chunk of channel 2 was dropped by the full-capacity overwrite
without being counted anywhere. -/
theorem c2_counterexample :
    runOps 2 [Op.put 1 ⟨5⟩, Op.put 2 ⟨7⟩, Op.put 2 ⟨8⟩] = ⟨⟨2, [(2, ⟨8⟩)], 1, 0⟩, 3, 0⟩ ∧
      ¬((runOps 2 [Op.put 1 ⟨5⟩, Op.put 2 ⟨7⟩, Op.put 2 ⟨8⟩]).cache.missed +
          (runOps 2 [Op.put 1 ⟨5⟩, Op.put 2 ⟨7⟩, Op.put 2 ⟨8⟩]).cache.replaced +
          (runOps 2 [Op.put 1 ⟨5⟩, Op.put 2 ⟨7⟩, Op.put 2 ⟨8⟩]).delivered +
          (runOps 2 [Op.put 1 ⟨5⟩, Op.put 2 ⟨7⟩, Op.put 2 ⟨8⟩]).cache.dict.length =
        (runOps 2 [Op.put 1 ⟨5⟩, Op.put 2 ⟨7⟩, Op.put 2 ⟨8⟩]).puts) := by
  decide

/-- C2 (amended): every chunk that entered the cache is accounted
**at most** once — for every sequence of puts and pops,
`missed + replaced + delivered + |cache| ≤ total_puts` at every
observation point.  Equality can fail: a put at full capacity to an
already-resident channel drops the resident chunk uncounted. -/
theorem c2_conservation (size : Nat) (ops : List Op) :
    (runOps size ops).cache.missed + (runOps size ops).cache.replaced +
      (runOps size ops).delivered + (runOps size ops).cache.dict.length ≤
      (runOps size ops).puts :=
  foldl_measure ops ⟨⟨size, [], 0, 0⟩, 0, 0⟩ (by simp)

/-- C3 (code bug): `get_read_chunks` passes the literal `last=True` to
`popitems`, ignoring its `last` argument.  On the cache
`[(1, read 5), (2, read 7)]` (oldest first), `get_read_chunks(1, last=false)`
returns the newest entry `(2, read 7)`, although `popitems(1, last=false)`
— what the docstring promises — returns the oldest `(1, read 5)`. -/
theorem c3_last_ignored :
    (getReadChunks ⟨2, [(1, ⟨5⟩), (2, ⟨7⟩)], 0, 0⟩ 1 false).1 = [(2, ⟨7⟩)] ∧
      (ReadCache.popItems ⟨2, [(1, ⟨5⟩), (2, ⟨7⟩)], 0, 0⟩ 1 false).1 = [(1, ⟨5⟩)] := by
  decide

/-- C4: starting from a fresh cache of capacity `size ≥ 1`, after any
sequence of put and pop operations the entry count is at most `size`
(and trivially at least 0) and the channel keys are pairwise
distinct. -/
theorem c4_bounded_nodup (size : Nat) (ops : List Op) (hsz : 1 ≤ size) :
    (runOps size ops).cache.dict.length ≤ size ∧
      ((runOps size ops).cache.dict.map Prod.fst).Nodup := by
  have h := foldl_wf size hsz ops ⟨⟨size, [], 0, 0⟩, 0, 0⟩ ⟨rfl, by simp, by simp⟩
  exact ⟨h.2.1, h.2.2⟩

/-- C4 (witness): capacity 1, two puts on distinct channels and a
pop. -/
theorem c4_witness :
    (runOps 1 [Op.put 1 ⟨5⟩, Op.put 2 ⟨7⟩, Op.popOne true]).cache.dict.length ≤ 1 ∧
      ((runOps 1 [Op.put 1 ⟨5⟩, Op.put 2 ⟨7⟩, Op.popOne true]).cache.dict.map
        Prod.fst).Nodup :=
  c4_bounded_nodup 1 [Op.put 1 ⟨5⟩, Op.put 2 ⟨7⟩, Op.popOne true] (by decide)

/-- C5: on a full, well-keyed cache whose channel `key` is not
resident, `put(key, v)` evicts exactly the oldest entry `hd`,
increments `replaced` when the evicted entry matches `(key, v.number)`
and `missed` otherwise — and since `key` is not resident the evicted
channel can never match, so `missed` is what increments; the remaining
entries shift and `(key, v)` becomes the newest entry. -/
theorem c5_evicts_oldest (s : ReadCache) (key : Nat) (v : Chunk) (hd : Nat × Chunk)
    (tl : List (Nat × Chunk)) (hfull : s.dict.length = s.size)
    (hkey : key ∉ s.dict.map Prod.fst) (hdict : s.dict = hd :: tl) :
    s.setItem key v =
      ⟨s.size, tl ++ [(key, v)],
        (if hd.1 = key ∧ hd.2.number = v.number then s.missed else s.missed + 1),
        (if hd.1 = key ∧ hd.2.number = v.number then s.replaced + 1 else s.replaced)⟩ ∧
      s.setItem key v = ⟨s.size, tl ++ [(key, v)], s.missed + 1, s.replaced⟩ := by
  obtain ⟨k0, v0⟩ := hd
  have hne : k0 ≠ key := by
    intro he
    apply hkey
    rw [hdict]
    simp [he]
  have hcond : ¬(k0 = key ∧ v0.number = v.number) := fun hc => hne hc.1
  have hcap : ((k0, v0) :: tl).length = s.size := by rw [← hdict]; exact hfull
  have hfind : tl.find? (fun p => p.1 == key) = none := by
    apply List.find?_eq_none.mpr
    intro q hq
    simp only [beq_iff_eq]
    intro he
    apply hkey
    rw [hdict]
    simp only [List.map_cons, List.mem_cons]
    exact Or.inr (List.mem_map.mpr ⟨q, hq, he⟩)
  have hmain : s.setItem key v = ⟨s.size, tl ++ [(key, v)], s.missed + 1, s.replaced⟩ := by
    unfold ReadCache.setItem
    rw [hdict, evictLoop_at_capacity hcap]
    simp [hfind, hcond]
  exact ⟨by rw [hmain, if_neg hcond, if_neg hcond], hmain⟩

/-- C5 (witness): the spec's eviction-accounting scenario,
`cache_size = 2`, puts `(ch 1, r 5)`, `(ch 2, r 7)`, `(ch 3, r 9)`:
`missed = 1`, two resident entries, channel 1 evicted. -/
theorem c5_witness :
    (runOps 2 [Op.put 1 ⟨5⟩, Op.put 2 ⟨7⟩, Op.put 3 ⟨9⟩]).cache =
      ⟨2, [(2, ⟨7⟩), (3, ⟨9⟩)], 1, 0⟩ := by
  have hmid : (runOps 2 [Op.put 1 ⟨5⟩, Op.put 2 ⟨7⟩]).cache =
      ⟨2, [(1, ⟨5⟩), (2, ⟨7⟩)], 0, 0⟩ := by decide
  have h := c5_evicts_oldest ⟨2, [(1, ⟨5⟩), (2, ⟨7⟩)], 0, 0⟩ 3 ⟨9⟩ (1, ⟨5⟩) [(2, ⟨7⟩)]
    (by decide) (by decide) (by decide)
  show ReadCache.setItem (runOps 2 [Op.put 1 ⟨5⟩, Op.put 2 ⟨7⟩]).cache 3 ⟨9⟩ = _
  rw [hmid, h.2]
  decide

/-- C9: on an empty cache a single pop fails (`KeyError`, modelled as
`none`) for either end, while a batch pop of any size succeeds with
the empty batch and leaves the dict and both counters unchanged. -/
theorem c9_empty_pops (size missed replaced items : Nat) (last : Bool) :
    (⟨size, [], missed, replaced⟩ : ReadCache).popItem last = none ∧
      (⟨size, [], missed, replaced⟩ : ReadCache).popItems items last =
        ([], ⟨size, [], missed, replaced⟩) := by
  have hpop : (⟨size, [], missed, replaced⟩ : ReadCache).popItem last = none := by
    cases last <;> simp [ReadCache.popItem]
  refine ⟨hpop, ?_⟩
  cases items with
  | zero => rfl
  | succ n => simp [ReadCache.popItems, hpop]

/-- C10: the counters are modified only by puts — single and batch
pops leave `missed` and `replaced` unchanged — and a single put from a
state within capacity increases `missed + replaced` by at most one. -/
theorem c10_counter_discipline (s : ReadCache) (key : Nat) (v : Chunk) (items : Nat)
    (last : Bool) :
    (∀ p s1, s.popItem last = some (p, s1) →
      s1.missed = s.missed ∧ s1.replaced = s.replaced) ∧
      ((s.popItems items last).2.missed = s.missed ∧
        (s.popItems items last).2.replaced = s.replaced) ∧
      (s.dict.length ≤ s.size →
        (s.setItem key v).missed + (s.setItem key v).replaced ≤
          s.missed + s.replaced + 1) := by
  refine ⟨?_, ?_, ?_⟩
  · intro p s1 hp
    have hs := popItem_some s last p s1 hp
    exact ⟨hs.2.1, hs.2.2.1⟩
  · have hs := popItems_spec items last s
    exact ⟨hs.2.1, hs.2.2.1⟩
  · intro hle
    rcases Nat.lt_or_ge s.dict.length s.size with hlt | hge
    · unfold ReadCache.setItem
      rw [evictLoop_below hlt]
      rcases hf : s.dict.find? (fun p => p.1 == key) with _ | p
      · simp [hf]
      · by_cases hn : p.2.number = v.number <;> simp [hf, hn] <;> omega
    · have hfull : s.dict.length = s.size := le_antisymm hle hge
      cases hd : s.dict with
      | nil =>
        unfold ReadCache.setItem
        rw [hd]
        simp [evictLoop]
      | cons q tl =>
        obtain ⟨k0, v0⟩ := q
        have hcap : ((k0, v0) :: tl).length = s.size := by rw [← hd]; exact hfull
        unfold ReadCache.setItem
        rw [hd, evictLoop_at_capacity hcap]
        rcases hf : tl.find? (fun p => p.1 == key) with _ | p
        · by_cases hc : k0 = key ∧ v0.number = v.number <;> simp [hf, hc] <;> omega
        · by_cases hc : k0 = key ∧ v0.number = v.number <;> simp [hf, hc] <;> omega

/-- C10 (witness): a successful pop off `[(1, r 5), (2, r 7)]` keeps
both counters at 0, and a put within capacity adds at most one to
their sum. -/
theorem c10_witness :
    ((⟨2, [(1, ⟨5⟩)], 0, 0⟩ : ReadCache).missed =
        (⟨2, [(1, ⟨5⟩), (2, ⟨7⟩)], 0, 0⟩ : ReadCache).missed ∧
      (⟨2, [(1, ⟨5⟩)], 0, 0⟩ : ReadCache).replaced =
        (⟨2, [(1, ⟨5⟩), (2, ⟨7⟩)], 0, 0⟩ : ReadCache).replaced) ∧
      (ReadCache.setItem ⟨2, [(1, ⟨5⟩), (2, ⟨7⟩)], 0, 0⟩ 2 ⟨8⟩).missed +
          (ReadCache.setItem ⟨2, [(1, ⟨5⟩), (2, ⟨7⟩)], 0, 0⟩ 2 ⟨8⟩).replaced ≤
        (⟨2, [(1, ⟨5⟩), (2, ⟨7⟩)], 0, 0⟩ : ReadCache).missed +
          (⟨2, [(1, ⟨5⟩), (2, ⟨7⟩)], 0, 0⟩ : ReadCache).replaced + 1 := by
  have h := c10_counter_discipline ⟨2, [(1, ⟨5⟩), (2, ⟨7⟩)], 0, 0⟩ 2 ⟨8⟩ 1 true
  exact ⟨h.1 (2, ⟨7⟩) ⟨2, [(1, ⟨5⟩)], 0, 0⟩ (by decide), h.2.2 (by decide)⟩

/-- C6: the coordinator writes an inbound chunk into the cache iff
`filter_strands` is disabled or the chunk is strand-like, i.e. some
code of its classifications maps under the session classification map
to a name in `{strand, strand1, adapter, unavailable}`; a code absent
from the map contributes nothing. -/
theorem c6_strand_filter (filter_strands : Bool) (read_classes : List (Nat × String))
    (classifications : List Nat) :
    shouldCache filter_strands (strandClasses read_classes) classifications = true ↔
      filter_strands = false ∨
        ∃ code ∈ classifications,
          ∃ nm, (code, nm) ∈ read_classes ∧ nm ∈ allowedClasses := by
  simp only [shouldCache, Bool.or_eq_true, Bool.not_eq_true', strandLike,
    List.any_eq_true, strandClasses, List.mem_map, List.mem_filter,
    List.contains_eq_any_beq, beq_iff_eq]
  constructor
  · rintro (h | ⟨x, hx, hmem⟩)
    · exact Or.inl h
    · obtain ⟨x1, ⟨a, ⟨ha, y, hy, hay⟩, ha1⟩, hxx1⟩ := hmem
      refine Or.inr ⟨x, hx, a.2, ?_, hay ▸ hy⟩
      have hax : a = (x, a.2) := by
        rw [Prod.ext_iff]
        exact ⟨by rw [ha1, hxx1], rfl⟩
      rw [← hax]
      exact ha
  · rintro (h | ⟨code, hc, nm, hmem, hall⟩)
    · exact Or.inl h
    · exact Or.inr ⟨code, hc, code, ⟨⟨(code, nm), ⟨⟨hmem, ⟨nm, hall, rfl⟩⟩, rfl⟩⟩, rfl⟩⟩

/-- C7: the setup message emitted by the runner carries
`sample_minimum_chunk_size = min(min_chunk_size, 4000)`: values above
`ALLOWED_MIN_CHUNK_SIZE` are clamped, values at or below pass
through. -/
theorem c7_min_chunk_clamped (run_time startT fc lc : Nat) (mcs : Int)
    (sched : List (Nat × List Nat)) :
    (runner run_time startT fc lc mcs sched).head? =
      some (RunnerMsg.setup fc lc (min mcs ALLOWED_MIN_CHUNK_SIZE)) ∧
      clampMinChunkSize mcs = min mcs ALLOWED_MIN_CHUNK_SIZE := by
  have h : clampMinChunkSize mcs = min mcs ALLOWED_MIN_CHUNK_SIZE := by
    unfold clampMinChunkSize
    rcases le_or_lt mcs ALLOWED_MIN_CHUNK_SIZE with hle | hlt
    · rw [if_neg (not_lt.mpr hle), min_eq_left hle]
    · rw [if_pos hlt, min_eq_right hlt.le]
  exact ⟨by rw [runner, h]; rfl, h⟩

/-- Every message the runner loop ever emits is an actions message. -/
theorem runnerLoop_all_actions (timeout t0 : Nat) (sched : List (Nat × List Nat)) :
    ∀ msg ∈ runnerLoop timeout t0 sched, ∃ acts, msg = RunnerMsg.actions acts := by
  induction sched generalizing t0 with
  | nil =>
    intro msg hm
    simp [runnerLoop] at hm
  | cons p rest ih =>
    obtain ⟨t, acts⟩ := p
    intro msg hm
    simp only [runnerLoop] at hm
    split at hm
    · rcases List.mem_append.mp hm with h1 | h2
      · cases he : acts.isEmpty with
        | true => simp [he] at h1
        | false =>
          simp only [he, Bool.false_eq_true, if_false, List.mem_singleton] at h1
          exact ⟨acts, h1⟩
      · exact ih t msg h2
    · simp at hm

/-- C8: every outbound sequence the runner produces starts with
exactly one setup message, everything after it is an actions message,
and with `run_time = 0` the setup message is the whole sequence (the
loop guard `t0 < t0 + 0` fails immediately). -/
theorem c8_setup_precedes_actions (run_time startT fc lc : Nat) (mcs : Int)
    (sched : List (Nat × List Nat)) :
    runner run_time startT fc lc mcs sched =
      RunnerMsg.setup fc lc (clampMinChunkSize mcs) ::
        runnerLoop (startT + run_time) startT sched ∧
      (∀ msg ∈ runnerLoop (startT + run_time) startT sched,
        ∃ acts, msg = RunnerMsg.actions acts) ∧
      runner 0 startT fc lc mcs sched = [RunnerMsg.setup fc lc (clampMinChunkSize mcs)] := by
  refine ⟨rfl, runnerLoop_all_actions _ _ _, ?_⟩
  unfold runner
  congr 1
  cases sched with
  | nil => rfl
  | cons p rest =>
    obtain ⟨t, acts⟩ := p
    simp [runnerLoop]

/-- C8 (witness): a one-iteration schedule draining action 7 yields
`[setup, actions [7]]`, and the same session with `run_time = 0`
yields only the setup message. -/
theorem c8_witness :
    runner 1 0 1 512 2000 [(0, [7])] =
      [RunnerMsg.setup 1 512 2000, RunnerMsg.actions [7]] ∧
      runner 0 0 1 512 2000 [(0, [7])] = [RunnerMsg.setup 1 512 2000] ∧
      (∃ acts, RunnerMsg.actions [7] = RunnerMsg.actions acts) := by
  have h := c8_setup_precedes_actions 1 0 1 512 2000 [(0, [7])]
  refine ⟨?_, ?_, ?_⟩
  · rw [h.1]
    decide
  · rw [h.2.2]
    decide
  · exact h.2.1 (RunnerMsg.actions [7]) (by decide)

end ReadUntilSpec
